import Mathlib

/-!
Verification of the layered DRG-PoRep engine (rust-fil-proofs snapshot).

Shallow embedding of:
* `storage-proofs/src/io/fr32.rs` — padding codec (`write_padded`,
  `write_unpadded`) and the stateful `Fr32Writer`;
* `storage-proofs/src/zigzag_graph.rs` — expanded parents, full parents,
  parents-cache guards;
* `storage-proofs/src/layered_drgporep.rs` — `simplify_tau`, layered `verify`;
* `filecoin-proofs/src/api/internal.rs` — `get_config`, `seal` tail,
  `get_unsealed_range` plumbing.

Bytes are modelled as `Nat` (< 256), bit streams as `List Bool` (LSB first,
matching `bitvec::LittleEndian` over `u8`), machine integers as `Nat` with
explicit `% 256` where u8 overflow matters.  Components of the repository
whose sources are not available (the Feistel permutation, the base
`BucketGraph`, the single-layer `DrgPoRep` verifier) are modelled from the
spec as parameters constrained by the properties the spec assigns to them.
-/

set_option maxRecDepth 20000

namespace Layered

/-- Commitment pair of a single layer (`porep::Tau`): Merkle roots of the
replica and of the data.  Commitment values are abstracted as `Nat`. -/
structure Tau where
  comm_r : Nat
  comm_d : Nat
  deriving Repr, DecidableEq

/-- Model of `layered_drgporep::simplify_tau`: the source indexes
`taus[taus.len() - 1]` and `taus[0]`, which panics on an empty slice; the
panic is modelled as `none`. -/
def simplify_tau (taus : List Tau) : Option Tau :=
  match taus.getLast?, taus.head? with
  | some tl, some t0 => some { comm_r := tl.comm_r, comm_d := t0.comm_d }
  | _, _ => none

end Layered

namespace SealApi

/-- Sector-store configuration as read by the API layer
(`SectorConfig::is_fake`, `::simulate_delay_seconds`,
`::max_unsealed_bytes_per_sector` from `sector-base`). -/
structure StoreConfig where
  is_fake : Bool
  simulate_delay_seconds : Option Nat
  max_unsealed_bytes_per_sector : Nat

/-- Constant `FAKE_SECTOR_BYTES` from `filecoin-proofs/src/api/internal.rs`. -/
def FAKE_SECTOR_BYTES : Nat := 128

/-- Model of `internal::get_config`.  The source asserts
`if fake { true } else { !delayed }`; the assertion failure (panic) is
modelled as `none`. -/
def get_config (c : StoreConfig) : Option (Bool × Option Nat × Nat × Nat) :=
  let fake := c.is_fake
  let delay_seconds := c.simulate_delay_seconds
  let delayed := delay_seconds.isSome
  let sector_bytes := c.max_unsealed_bytes_per_sector
  let proof_sector_bytes := if fake then FAKE_SECTOR_BYTES else sector_bytes
  let valid := if fake then true else !delayed
  if valid then some (fake, delay_seconds, sector_bytes, proof_sector_bytes) else none

/-- Model of `internal::seal`: its first step is `get_config`, every later
step is reached only if the assertion in `get_config` passed.  The remaining
effectful body is abstracted as the continuation `rest`. -/
def seal_fn (c : StoreConfig) (rest : Bool × Option Nat × Nat × Nat → Option α) : Option α :=
  (get_config c).bind rest

/-- Model of `internal::verify_seal`: first step is `get_config`. -/
def verify_seal (c : StoreConfig) (rest : Bool × Option Nat × Nat × Nat → Option α) : Option α :=
  (get_config c).bind rest

/-- Model of `internal::get_unsealed_range`: first step is `get_config`. -/
def get_unsealed_range (c : StoreConfig) (rest : Bool × Option Nat × Nat × Nat → Option α) : Option α :=
  (get_config c).bind rest

/-- Tail of `internal::seal` (lines 204–233): after the SNARK proof is
produced, the code runs `verify_seal(..).expect("post-seal verification
sanity check failed")`.  `.expect` on a `Result<bool, _>` panics on `Err`
(modelled as `Except.error`) and returns the `bool` on `Ok` — the returned
boolean is discarded, and `seal` then returns `Ok((comm_r, comm_d,
proof_bytes))`. -/
def sealFinish (comm_r comm_d proof_bytes : Nat)
    (selfVerifyOutcome : Except Unit Bool) : Except Unit (Nat × Nat × Nat) :=
  match selfVerifyOutcome with
  | Except.error e => Except.error e
  | Except.ok _verified => Except.ok (comm_r, comm_d, proof_bytes)

end SealApi

namespace ZigZagCache

/-- Model of `ZigZagGraph::read_parents_cache`.  The cache is the map held
under the `RwLock` for the current direction, modelled as an association
list.  The source guard is `if node > self.cache_entries { return None; }`. -/
def read_parents_cache (cache_entries : Nat) (cache : List (Nat × List Nat))
    (node : Nat) : Option (List Nat) :=
  if node > cache_entries then none
  else cache.lookup node

/-- Model of `ZigZagGraph::write_parents_cache`.  The source guard is
`if node > self.cache_entries { return; }`; a permitted write inserts the
entry into the map. -/
def write_parents_cache (cache_entries : Nat) (cache : List (Nat × List Nat))
    (node : Nat) (ps : List Nat) : List (Nat × List Nat) :=
  if node > cache_entries then cache
  else (node, ps) :: cache

end ZigZagCache

namespace Layered

/-- Claim C9: for a non-empty list of layer taus, `simplify_tau` returns the
pair whose `comm_d` is the first layer's `comm_d` and whose `comm_r` is the
last layer's `comm_r`. -/
theorem simplify_tau_first_last (taus : List Tau) (h : taus ≠ []) :
    simplify_tau taus =
      some { comm_r := (taus.getLast h).comm_r, comm_d := (taus.head h).comm_d } := by
  unfold simplify_tau
  rw [List.getLast?_eq_getLast taus h, List.head?_eq_head h]

/-- Witness for C9 at a concrete two-layer input. -/
theorem simplify_tau_first_last_witness :
    ([Tau.mk 1 2, Tau.mk 3 4] ≠ []) ∧
      simplify_tau [Tau.mk 1 2, Tau.mk 3 4] = some (Tau.mk 3 2) :=
  ⟨by decide, simplify_tau_first_last [Tau.mk 1 2, Tau.mk 3 4] (by decide)⟩

end Layered

namespace SealApi

/-- Claim C1 (code evaluated at the failing input): when the post-seal
self-verification returns `Ok(false)` — the verifier rejects the proof —
`seal` still returns `Ok` with that proof, because `.expect` only unwraps
the `Result` and discards the boolean.  The claim that a non-verifying
proof aborts the seal operation is violated by the code. -/
theorem sealFinish_returns_ok_on_failed_verification :
    sealFinish 1 2 3 (Except.ok false) = Except.ok (1, 2, 3) ∧
      (∀ r d p, sealFinish r d p (Except.ok false) = Except.ok (r, d, p)) :=
  ⟨rfl, fun _ _ _ => rfl⟩

/-- Claim C10: a store configuration that reports a simulated delay while
not being fake fails the assertion in `get_config`, so `seal`,
`verify_seal` and `get_unsealed_range` on such a store never proceed past
configuration reading, whatever their remaining bodies do. -/
theorem get_config_asserts_on_delayed_non_fake (c : StoreConfig) (d : Nat)
    (hf : c.is_fake = false) (hd : c.simulate_delay_seconds = some d) :
    get_config c = none ∧
      (∀ α (rest : Bool × Option Nat × Nat × Nat → Option α),
        seal_fn c rest = none ∧ verify_seal c rest = none ∧
          get_unsealed_range c rest = none) := by
  have hc : get_config c = none := by
    unfold get_config
    simp [hf, hd]
  refine ⟨hc, fun α rest => ?_⟩
  unfold seal_fn verify_seal get_unsealed_range
  simp [hc]

/-- Witness for C10 at a concrete non-fake delayed configuration. -/
theorem get_config_asserts_on_delayed_non_fake_witness :
    (StoreConfig.mk false (some 7) 1024).is_fake = false ∧
      (StoreConfig.mk false (some 7) 1024).simulate_delay_seconds = some 7 ∧
      get_config (StoreConfig.mk false (some 7) 1024) = none ∧
      seal_fn (StoreConfig.mk false (some 7) 1024) (fun cfg => some cfg.1) = none := by
  have h := get_config_asserts_on_delayed_non_fake
    (StoreConfig.mk false (some 7) 1024) 7 rfl rfl
  exact ⟨rfl, rfl, h.1, (h.2 Bool (fun cfg => some cfg.1)).1⟩

end SealApi

namespace ZigZagCache

/-- Claim C7 counterexample: at `node = cache_entries` (which satisfies
`node ≥ cache_entries`) the cache IS written and subsequently read — the
source guards use `>`, not `≥` — so a stored key need not be strictly less
than `cache_entries`. -/
theorem cache_guard_counterexample :
    write_parents_cache 5 [] 5 [1, 2] = [(5, [1, 2])] ∧
      read_parents_cache 5 [(5, [1, 2])] 5 = some [1, 2] ∧
      ¬ (∀ k ∈ (write_parents_cache 5 [] 5 [1, 2]).map Prod.fst, k < 5) := by
  refine ⟨rfl, rfl, ?_⟩
  intro h
  exact absurd (h 5 (by decide)) (by decide)

/-- Claim C7 (amended): for every node index with `node > cache_entries`
the expanded-parents computation neither reads from nor writes to the
parents cache, and every key stored in the cache is at most
`cache_entries` (not strictly less than it). -/
theorem cache_guard_amended (cache_entries node : Nat)
    (cache : List (Nat × List Nat)) (ps : List Nat)
    (hkeys : ∀ k ∈ cache.map Prod.fst, k ≤ cache_entries) :
    (node > cache_entries →
      read_parents_cache cache_entries cache node = none ∧
        write_parents_cache cache_entries cache node ps = cache) ∧
      (node ≤ cache_entries →
        ∀ k ∈ (write_parents_cache cache_entries cache node ps).map Prod.fst,
          k ≤ cache_entries) := by
  constructor
  · intro hgt
    unfold read_parents_cache write_parents_cache
    simp [hgt]
  · intro hle k hk
    unfold write_parents_cache at hk
    rw [if_neg (by omega)] at hk
    simp only [List.map_cons, List.mem_cons] at hk
    rcases hk with h | h
    · omega
    · exact hkeys k h

/-- Witness for the amended C7 at concrete inputs. -/
theorem cache_guard_amended_witness :
    (∀ k ∈ ([(2, [9])] : List (Nat × List Nat)).map Prod.fst, k ≤ 5) ∧
      read_parents_cache 5 [(2, [9])] 6 = none ∧
      write_parents_cache 5 [(2, [9])] 6 [1] = [(2, [9])] ∧
      (∀ k ∈ (write_parents_cache 5 [(2, [9])] 4 [1]).map Prod.fst, k ≤ 5) := by
  have h := cache_guard_amended 5 6 [(2, [9])] [1] (by decide)
  have h4 := cache_guard_amended 5 4 [(2, [9])] [1] (by decide)
  exact ⟨by decide, (h.1 (by decide)).1, (h.1 (by decide)).2, h4.2 (by decide)⟩

end ZigZagCache

namespace Layered

/-- A layered proof (`layered_drgporep::Proof`): one encoding proof per
layer plus the per-layer taus.  The single-layer proof type
(`drgporep::Proof`, whose source is not part of this snapshot) is
abstracted as the type parameter `SubP`. -/
structure LayeredProof (SubP : Type) where
  encoding_proofs : List SubP
  tau : List Tau

/-- Loop body of `layered_drgporep::verify` (lines 272–313).  Modelled from
the spec: the single-layer verifier `DrgPoRep::verify` (drgporep.rs is not
in this snapshot) is the parameter `sv` returning `Except Unit Bool` — `Ok`
of a boolean verdict or a propagated error; `transform` is the per-layer
public-parameter transform (the ZigZag toggle).  Indexing `proof.tau[layer]`
panics when out of bounds, modelled as `Except.error ()`.  For each layer:
look up the layer tau, run the sub-verifier, transform the parameters, and
stop with `Ok(false)` as soon as a sub-verdict is `false`. -/
def verifyLayers {PP SubP : Type} (transform : PP → Nat → Nat → PP)
    (sv : PP → Tau → SubP → Except Unit Bool) (total : Nat) (taus : List Tau) :
    PP → Nat → List SubP → Except Unit Bool
  | _, _, [] => Except.ok true
  | pp, layer, ep :: rest =>
    match taus[layer]? with
    | none => Except.error ()
    | some t =>
      match sv pp t ep with
      | Except.error e => Except.error e
      | Except.ok res =>
        let pp2 := transform pp layer total
        if res then verifyLayers transform sv total taus pp2 (layer + 1) rest
        else Except.ok false

/-- Model of `layered_drgporep::verify`: rejects with `Ok(false)` when the
number of encoding proofs differs from the configured number of layers,
otherwise runs the per-layer loop from the initial public parameters. -/
def verify {PP SubP : Type} (transform : PP → Nat → Nat → PP)
    (sv : PP → Tau → SubP → Except Unit Bool) (layers : Nat) (pp : PP)
    (proof : LayeredProof SubP) : Except Unit Bool :=
  if proof.encoding_proofs.length ≠ layers then Except.ok false
  else verifyLayers transform sv layers proof.tau pp 0 proof.encoding_proofs

/-- Public parameters as seen at layer `j` of the verification loop: `j`
successive applications of `transform`. -/
def ppAt {PP : Type} (transform : PP → Nat → Nat → PP) (total : Nat) (pp0 : PP) :
    Nat → PP
  | 0 => pp0
  | j + 1 => transform (ppAt transform total pp0 j) j total

/-- Verdict of the layer-`j` sub-verification as the loop would run it. -/
def svAt {PP SubP : Type} (transform : PP → Nat → Nat → PP)
    (sv : PP → Tau → SubP → Except Unit Bool) (total : Nat) (pp0 : PP)
    (proof : LayeredProof SubP) (j : Nat) : Except Unit Bool :=
  match proof.tau[j]?, proof.encoding_proofs[j]? with
  | some t, some ep => sv (ppAt transform total pp0 j) t ep
  | _, _ => Except.error ()

lemma verifyLayers_reaches_false {PP SubP : Type} (transform : PP → Nat → Nat → PP)
    (sv : PP → Tau → SubP → Except Unit Bool) (total : Nat) (pp0 : PP)
    (proof : LayeredProof SubP) :
    ∀ d s, s + d < proof.encoding_proofs.length → s + d < proof.tau.length →
      (∀ k, s ≤ k → k < s + d → svAt transform sv total pp0 proof k = Except.ok true) →
      svAt transform sv total pp0 proof (s + d) = Except.ok false →
      verifyLayers transform sv total proof.tau (ppAt transform total pp0 s) s
        (proof.encoding_proofs.drop s) = Except.ok false := by
  intro d
  induction d with
  | zero =>
    intro s hse hst _ hfalse
    simp only [Nat.add_zero] at hse hst hfalse
    have hsv : sv (ppAt transform total pp0 s) proof.tau[s] proof.encoding_proofs[s]
        = Except.ok false := by
      unfold svAt at hfalse
      rw [List.getElem?_eq_getElem hst, List.getElem?_eq_getElem hse] at hfalse
      exact hfalse
    rw [List.drop_eq_getElem_cons hse]
    unfold verifyLayers
    rw [List.getElem?_eq_getElem hst]
    simp [hsv]
  | succ d ih =>
    intro s hse hst htrue hfalse
    have hs : s < proof.encoding_proofs.length := by omega
    have hst' : s < proof.tau.length := by omega
    have hsv : sv (ppAt transform total pp0 s) proof.tau[s] proof.encoding_proofs[s]
        = Except.ok true := by
      have h := htrue s (Nat.le_refl s) (by omega)
      unfold svAt at h
      rw [List.getElem?_eq_getElem hst', List.getElem?_eq_getElem hs] at h
      exact h
    rw [List.drop_eq_getElem_cons hs]
    unfold verifyLayers
    rw [List.getElem?_eq_getElem hst']
    have hrec := ih (s + 1) (by omega) (by omega)
      (fun k hk1 hk2 => htrue k (by omega) (by omega))
      (by have heq : s + 1 + d = s + (d + 1) := by omega
          rw [heq]; exact hfalse)
    simp only [hsv]
    exact hrec

/-- Claim C8: layered `verify` rejects by returning `Ok(false)`, not an
error: it returns `false` whenever the number of per-layer encoding proofs
differs from the configured number of layers, and it returns `false`
whenever the per-layer sub-verifications succeed up to some layer `j`
whose sub-proof then fails to verify (the sub-verifier returns `Ok(false)`). -/
theorem verify_rejects_by_false {PP SubP : Type} (transform : PP → Nat → Nat → PP)
    (sv : PP → Tau → SubP → Except Unit Bool) (layers : Nat) (pp0 : PP)
    (proof : LayeredProof SubP) :
    (proof.encoding_proofs.length ≠ layers →
      verify transform sv layers pp0 proof = Except.ok false) ∧
      (∀ j, j < proof.encoding_proofs.length → j < proof.tau.length →
        (∀ k, k < j → svAt transform sv layers pp0 proof k = Except.ok true) →
        svAt transform sv layers pp0 proof j = Except.ok false →
        verify transform sv layers pp0 proof = Except.ok false) := by
  constructor
  · intro hne
    unfold verify
    rw [if_pos hne]
  · intro j hj hjt htrue hfalse
    by_cases hlen : proof.encoding_proofs.length = layers
    · unfold verify
      rw [if_neg (by omega)]
      have := verifyLayers_reaches_false transform sv layers pp0 proof j 0
        (by omega) (by omega)
        (fun k hk1 hk2 => htrue k (by omega))
        (by simpa using hfalse)
      simpa using this
    · unfold verify
      rw [if_pos hlen]

/-- Witness for C8: a concrete two-layer instance whose second sub-proof
fails; `verify` returns `Ok(false)`. -/
theorem verify_rejects_by_false_witness :
    verify (fun (pp : Nat) _ _ => pp + 1) (fun _ _ (ep : Bool) => Except.ok ep) 2 0
        (LayeredProof.mk [true, false] [Tau.mk 0 0, Tau.mk 1 1]) = Except.ok false := by
  refine (verify_rejects_by_false (fun (pp : Nat) _ _ => pp + 1)
    (fun _ _ (ep : Bool) => Except.ok ep) 2 0
    (LayeredProof.mk [true, false] [Tau.mk 0 0, Tau.mk 1 1])).2 1
    (by decide) (by decide) ?_ rfl
  intro k hk
  have hk0 : k = 0 := by omega
  subst hk0
  rfl

end Layered

namespace ZigZagGraph

/-- Model of `ZigZagGraph::correspondent`.  Modelled from the spec: the
Feistel permutation (`crypto::feistel`, not in this snapshot) and its
inverse are the parameters `permFn` and `invFn`; the spec requires them to
be a mutually inverse pair of bijections on `[0, expansion_degree * n)`.
The source computes `a = node * expansion_degree + i`, applies `permute`
when forward and `invert_permute` when reversed, and divides the result by
`expansion_degree`. -/
def correspondent (E : Nat) (reversed : Bool) (permFn invFn : Nat → Nat)
    (node i : Nat) : Nat :=
  let a := node * E + i
  let transformed := if reversed then invFn a else permFn a
  transformed / E

/-- Model of `ZigZagGraph::expanded_parents` (the pure computation; the
parents cache it is memoised in is modelled separately by the cache guards):
for each `i < expansion_degree` keep `correspondent node i` when it is
`> node` (reversed) respectively `< node` (forward). -/
def expanded_parents (E : Nat) (reversed : Bool) (permFn invFn : Nat → Nat)
    (node : Nat) : List Nat :=
  (List.range E).filterMap fun i =>
    let other := correspondent E reversed permFn invFn node i
    if reversed then
      if other > node then some other else none
    else
      if other < node then some other else none

/-- Model of `ZigZagGraph::real_index`. -/
def real_index (n : Nat) (reversed : Bool) (i : Nat) : Nat :=
  if reversed then (n - 1) - i else i

/-- Model of the blanket `Graph::parents` implementation for ZigZag graphs:
base parents of `real_index raw_node` re-indexed through `real_index`,
extended by the expanded parents of `raw_node`, padded to
`degree = base_degree + expansion_degree` with `0` (forward) or `n - 1`
(reversed), then sorted ascending.  Modelled from the spec: the base
graph's `parents` (`drgraph::BucketGraph`, not in this snapshot) is the
parameter `baseParents`. -/
def graphParents (n baseDeg E : Nat) (reversed : Bool)
    (baseParents : Nat → List Nat) (permFn invFn : Nat → Nat)
    (raw_node : Nat) : List Nat :=
  let drg_parents := (baseParents (real_index n reversed raw_node)).map
    (real_index n reversed)
  let ps := drg_parents ++ expanded_parents E reversed permFn invFn raw_node
  let degree := baseDeg + E
  let padded := ps ++ List.replicate (degree - ps.length)
    (if reversed then n - 1 else 0)
  List.insertionSort (· ≤ ·) padded

lemma mem_expanded_parents_forward {E : Nat} {permFn invFn : Nat → Nat}
    {node p : Nat} :
    p ∈ expanded_parents E false permFn invFn node ↔
      (∃ j, j < E ∧ permFn (node * E + j) / E = p) ∧ p < node := by
  unfold expanded_parents correspondent
  rw [List.mem_filterMap]
  constructor
  · rintro ⟨j, hj, hfj⟩
    rw [List.mem_range] at hj
    simp only [Bool.false_eq_true, if_false] at hfj
    by_cases hlt : permFn (node * E + j) / E < node
    · rw [if_pos hlt] at hfj
      obtain rfl := Option.some.inj hfj
      exact ⟨⟨j, hj, rfl⟩, hlt⟩
    · rw [if_neg hlt] at hfj
      exact absurd hfj (by simp)
  · rintro ⟨⟨j, hj, hval⟩, hlt⟩
    refine ⟨j, List.mem_range.mpr hj, ?_⟩
    simp only [Bool.false_eq_true, if_false]
    rw [hval, if_pos hlt]

lemma mem_expanded_parents_reversed {E : Nat} {permFn invFn : Nat → Nat}
    {node q : Nat} :
    q ∈ expanded_parents E true permFn invFn node ↔
      (∃ k, k < E ∧ invFn (node * E + k) / E = q) ∧ node < q := by
  unfold expanded_parents correspondent
  rw [List.mem_filterMap]
  constructor
  · rintro ⟨k, hk, hfk⟩
    rw [List.mem_range] at hk
    simp only [if_true] at hfk
    by_cases hlt : node < invFn (node * E + k) / E
    · rw [if_pos hlt] at hfk
      obtain rfl := Option.some.inj hfk
      exact ⟨⟨k, hk, rfl⟩, hlt⟩
    · rw [if_neg hlt] at hfk
      exact absurd hfk (by simp)
  · rintro ⟨⟨k, hk, hval⟩, hlt⟩
    refine ⟨k, List.mem_range.mpr hk, ?_⟩
    simp only [if_true]
    rw [hval, if_pos hlt]

lemma length_expanded_parents_le (E : Nat) (reversed : Bool)
    (permFn invFn : Nat → Nat) (node : Nat) :
    (expanded_parents E reversed permFn invFn node).length ≤ E := by
  unfold expanded_parents
  exact le_trans (List.length_filterMap_le _ _) (le_of_eq (List.length_range E))

/-- One step of the reciprocity argument: if some index `j < E` sends
`a * E + j` through `f` to a slot of node `b`, then the residue of that
image is an index `k < E` sending `b * E + k` through the inverse `g` back
to a slot of node `a`. -/
lemma correspondent_flip {n E : Nat} {f g : Nat → Nat}
    (hf : ∀ x, x < E * n → f x < E * n)
    (hgf : ∀ x, x < E * n → g (f x) = x)
    {a b : Nat} (ha : a < n) :
    (∃ j, j < E ∧ f (a * E + j) / E = b) →
      ∃ k, k < E ∧ g (b * E + k) / E = a := by
  rintro ⟨j, hj, hval⟩
  have hE : 0 < E := Nat.lt_of_le_of_lt (Nat.zero_le j) hj
  have hx : a * E + j < E * n := by
    have h1 : a * E + j < (a + 1) * E := by rw [Nat.succ_mul]; omega
    have h2 : (a + 1) * E ≤ n * E := mul_le_mul_right' (by omega) E
    have h3 : E * n = n * E := Nat.mul_comm E n
    omega
  have hy : f (a * E + j) < E * n := hf _ hx
  refine ⟨f (a * E + j) % E, Nat.mod_lt _ hE, ?_⟩
  have hkey : b * E + f (a * E + j) % E = f (a * E + j) := by
    rw [← hval, Nat.mul_comm (f (a * E + j) / E) E]
    exact Nat.div_add_mod (f (a * E + j)) E
  rw [hkey, hgf _ hx, Nat.mul_comm a E, Nat.mul_add_div hE,
    Nat.div_eq_of_lt hj, Nat.add_zero]

/-- Claim C4: ZigZag reciprocity of the expansion overlay.  For a graph and
its `zigzag()` counterpart (same Feistel pair, toggled `reversed` flag),
`p` is an expanded parent of `i` in the forward graph iff `i` is an
expanded parent of `p` in the reversed graph, for all nodes `i, p < n`,
provided `permFn`/`invFn` are mutually inverse bijections on
`[0, E * n)` as the spec requires of the Feistel permutation. -/
theorem expanded_parents_reciprocity (n E : Nat) (permFn invFn : Nat → Nat)
    (hperm : ∀ x, x < E * n → permFn x < E * n)
    (hinv : ∀ x, x < E * n → invFn x < E * n)
    (hpi : ∀ x, x < E * n → invFn (permFn x) = x)
    (hip : ∀ x, x < E * n → permFn (invFn x) = x)
    (i p : Nat) (hi : i < n) (hp : p < n) :
    p ∈ expanded_parents E false permFn invFn i ↔
      i ∈ expanded_parents E true permFn invFn p := by
  rw [mem_expanded_parents_forward, mem_expanded_parents_reversed]
  constructor
  · rintro ⟨hex, hlt⟩
    exact ⟨correspondent_flip hperm hpi hi hex, hlt⟩
  · rintro ⟨hex, hlt⟩
    exact ⟨correspondent_flip hinv hip hp hex, hlt⟩

/-- Witness for C4: concrete graph with `n = 3`, `E = 2` and the bijection
`x ↦ x + 1 mod 6`; node 0 is an expanded parent of node 2 forward, and
node 2 is an expanded parent of node 0 reversed. -/
theorem expanded_parents_reciprocity_witness :
    (0 ∈ expanded_parents 2 false (fun x => (x + 1) % 6) (fun x => (x + 5) % 6) 2) ∧
      (2 ∈ expanded_parents 2 true (fun x => (x + 1) % 6) (fun x => (x + 5) % 6) 0) := by
  have h := expanded_parents_reciprocity 3 2 (fun x => (x + 1) % 6)
    (fun x => (x + 5) % 6) (by decide) (by decide) (by decide) (by decide)
    2 0 (by decide) (by decide)
  exact ⟨by decide, h.mp (by decide)⟩

end ZigZagGraph

namespace ZigZagGraph

lemma length_graphParents (n baseDeg E : Nat) (reversed : Bool)
    (baseParents : Nat → List Nat) (permFn invFn : Nat → Nat) (raw : Nat)
    (hbl : (baseParents (real_index n reversed raw)).length = baseDeg) :
    (graphParents n baseDeg E reversed baseParents permFn invFn raw).length
      = baseDeg + E := by
  unfold graphParents
  rw [List.length_insertionSort, List.length_append, List.length_append,
    List.length_map, List.length_replicate, hbl]
  have := length_expanded_parents_le E reversed permFn invFn raw
  omega

/-- Claim C5: for every ZigZag graph and node `raw < n`, each parent
returned by `parents` is `≤ raw` in the forward direction and `≥ raw` in
the reversed direction; node `0` (forward) and node `n - 1` (reversed) are
padded with self-loops (their parent lists are constant); and the returned
list is sorted ascending.  The base graph obeys the spec's contract
(`base_degree` sorted parents strictly below the node, node 0 mapped to
zeros), and the reversed inverse permutation maps `[0, E*n)` into itself. -/
theorem parents_monotone_selfloops_sorted
    (n baseDeg E : Nat) (baseParents : Nat → List Nat) (permFn invFn : Nat → Nat)
    (raw : Nat) (hraw : raw < n)
    (hblen : ∀ i, i < n → (baseParents i).length = baseDeg)
    (hbase : ∀ i, i < n → ∀ p ∈ baseParents i, (i = 0 → p = 0) ∧ (0 < i → p < i))
    (hinvb : ∀ x, x < E * n → invFn x < E * n) :
    (∀ p ∈ graphParents n baseDeg E false baseParents permFn invFn raw, p ≤ raw) ∧
      (∀ p ∈ graphParents n baseDeg E true baseParents permFn invFn raw, raw ≤ p) ∧
      (raw = 0 → graphParents n baseDeg E false baseParents permFn invFn raw
        = List.replicate (baseDeg + E) 0) ∧
      (raw = n - 1 → graphParents n baseDeg E true baseParents permFn invFn raw
        = List.replicate (baseDeg + E) (n - 1)) ∧
      (∀ reversed, List.Sorted (· ≤ ·)
        (graphParents n baseDeg E reversed baseParents permFn invFn raw)) := by
  have hn : 0 < n := Nat.lt_of_le_of_lt (Nat.zero_le raw) hraw
  have hfwd : ∀ p ∈ graphParents n baseDeg E false baseParents permFn invFn raw,
      p ≤ raw := by
    intro p hp
    simp only [graphParents, List.mem_insertionSort, List.mem_append] at hp
    rcases hp with (hp | hp) | hp
    · rw [List.mem_map] at hp
      obtain ⟨q, hq, hqp⟩ := hp
      simp only [real_index, Bool.false_eq_true, if_false] at hq hqp
      subst hqp
      have h := hbase raw hraw q hq
      rcases Nat.eq_zero_or_pos raw with h0 | h0
      · have := h.1 h0
        omega
      · have := h.2 h0
        omega
    · have h := mem_expanded_parents_forward.mp hp
      omega
    · simp only [Bool.false_eq_true, if_false] at hp
      have := List.eq_of_mem_replicate hp
      omega
  have hrev : ∀ p ∈ graphParents n baseDeg E true baseParents permFn invFn raw,
      raw ≤ p := by
    intro p hp
    simp only [graphParents, List.mem_insertionSort, List.mem_append] at hp
    rcases hp with (hp | hp) | hp
    · rw [List.mem_map] at hp
      obtain ⟨q, hq, hqp⟩ := hp
      simp only [real_index, if_true] at hq hqp
      subst hqp
      have hr : n - 1 - raw < n := by omega
      have h := hbase (n - 1 - raw) hr q hq
      rcases Nat.eq_zero_or_pos (n - 1 - raw) with h0 | h0
      · have := h.1 h0
        omega
      · have := h.2 h0
        omega
    · have h := mem_expanded_parents_reversed.mp hp
      omega
    · simp only [if_true] at hp
      have := List.eq_of_mem_replicate hp
      omega
  refine ⟨hfwd, hrev, ?_, ?_, ?_⟩
  · intro h0
    subst h0
    rw [List.eq_replicate_iff]
    refine ⟨length_graphParents n baseDeg E false baseParents permFn invFn 0
      (by simpa [real_index] using hblen 0 hn), ?_⟩
    intro b hb
    exact Nat.le_zero.mp (hfwd b hb)
  · intro hlast
    subst hlast
    rw [List.eq_replicate_iff]
    refine ⟨length_graphParents n baseDeg E true baseParents permFn invFn (n - 1)
      (by have : real_index n true (n - 1) = 0 := by simp [real_index]
          rw [this]; exact hblen 0 hn), ?_⟩
    intro b hb
    have hlo := hrev b hb
    have hhi : b ≤ n - 1 := by
      simp only [graphParents, List.mem_insertionSort, List.mem_append] at hb
      rcases hb with (hb | hb) | hb
      · rw [List.mem_map] at hb
        obtain ⟨q, hq, hqp⟩ := hb
        simp only [real_index, if_true] at hqp
        omega
      · obtain ⟨⟨k, hk, hval⟩, _⟩ := mem_expanded_parents_reversed.mp hb
        have hE : 0 < E := Nat.lt_of_le_of_lt (Nat.zero_le k) hk
        have hx : (n - 1) * E + k < E * n := by
          have h1 : (n - 1) * E + k < (n - 1 + 1) * E := by rw [Nat.succ_mul]; omega
          have h2 : n - 1 + 1 = n := by omega
          rw [h2] at h1
          rw [Nat.mul_comm E n]
          exact h1
        have hy := hinvb _ hx
        have : invFn ((n - 1) * E + k) / E < n := by
          rw [Nat.div_lt_iff_lt_mul hE, Nat.mul_comm n E]
          exact hy
        omega
      · simp only [if_true] at hb
        have := List.eq_of_mem_replicate hb
        omega
    omega
  · intro reversed
    unfold graphParents
    exact List.sorted_insertionSort _ _

/-- Witness for C5: concrete graph with `n = 4`, `base_degree = 1`,
`expansion_degree = 2`, base parents `i ↦ [i - 1]` and the bijection
`x ↦ x + 1 mod 8`, evaluated at node 2. -/
theorem parents_monotone_selfloops_sorted_witness :
    (∀ p ∈ graphParents 4 1 2 false (fun i => [i - 1]) (fun x => (x + 1) % 8)
        (fun x => (x + 7) % 8) 2, p ≤ 2) ∧
      (graphParents 4 1 2 false (fun i => [i - 1]) (fun x => (x + 1) % 8)
        (fun x => (x + 7) % 8) 0 = List.replicate 3 0) ∧
      (∀ reversed, List.Sorted (· ≤ ·) (graphParents 4 1 2 reversed
        (fun i => [i - 1]) (fun x => (x + 1) % 8) (fun x => (x + 7) % 8) 2)) := by
  have h2 := parents_monotone_selfloops_sorted 4 1 2 (fun i => [i - 1])
    (fun x => (x + 1) % 8) (fun x => (x + 7) % 8) 2 (by decide)
    (by decide) (by decide) (by decide)
  have h0 := parents_monotone_selfloops_sorted 4 1 2 (fun i => [i - 1])
    (fun x => (x + 1) % 8) (fun x => (x + 7) % 8) 0 (by decide)
    (by decide) (by decide) (by decide)
  exact ⟨h2.1, h0.2.2.1 rfl, h2.2.2.2.2⟩

namespace Fr32

/-- Constant `FR_UNPADDED_BITS` from `io/fr32.rs`. -/
def FR_UNPADDED_BITS : Nat := 254

/-- Constant `FR_PADDED_BITS` from `io/fr32.rs`. -/
def FR_PADDED_BITS : Nat := 256

/-- Bits of one byte, least-significant first, as produced by iterating a
`BitVec<bitvec::LittleEndian, u8>` over that byte. -/
def byteToBits (b : Nat) : List Bool := (List.range 8).map (Nat.testBit b)

/-- Bit stream of a byte sequence (`BitVec::from(source).into_iter()`). -/
def bytesToBits (bs : List Nat) : List Bool := (bs.map byteToBits).flatten

/-- Byte value of a bit list (LSB first), as produced by packing a chunk of
at most 8 bits back into a byte (`BitVec::from_iter(..).into_boxed_slice()`
for a sub-byte chunk). -/
def bitsToByte (bits : List Bool) : Nat :=
  bits.foldr (fun b acc => 2 * acc + (if b then 1 else 0)) 0

/-- Fuel-indexed chunking of a list into consecutive pieces of `n`
elements (`Itertools::chunks(n)`); the final piece may be shorter.  The
fuel only serves structural recursion; `chunks` instantiates it with the
list length, which is always sufficient (`chunksF_eq_of_le`). -/
def chunksF (fuel n : Nat) (l : List α) : List (List α) :=
  match fuel with
  | 0 => []
  | fuel + 1 =>
    match l with
    | [] => []
    | x :: xs =>
      if n = 0 then []
      else (x :: xs).take n :: chunksF fuel n ((x :: xs).drop n)

/-- Chunking of a list into consecutive pieces of `n` elements. -/
def chunks (n : Nat) (l : List α) : List (List α) := chunksF l.length n l

/-- Byte image of a bit stream: chunks of 8 bits, each packed into one
byte LSB-first (the final sub-byte chunk is implicitly zero-extended). -/
def bitsToBytes (bits : List Bool) : List Nat := (chunks 8 bits).map bitsToByte

/-- Zero-padding of one chunk up to a 256-bit frame
(`while bits.len() < FR_PADDED_BITS { bits.push(false) }`). -/
def padFrame (c : List Bool) : List Bool :=
  c ++ List.replicate (FR_PADDED_BITS - c.length) false

/-- Model of `fr32::write_padded`: cut the little-endian bit stream of the
source into 254-bit chunks, zero-pad each to 256 bits, and write each
frame's bytes in order. -/
def write_padded (source : List Nat) : List Nat :=
  ((chunks FR_UNPADDED_BITS (bytesToBits source)).map
    (fun c => bitsToBytes (padFrame c))).flatten

/-- Model of `fr32::write_unpadded(source, target, original_len)`: cut the
bit stream of the source into 256-bit chunks, take the low 254 bits of
each, re-chunk the result into bytes, and write the first `original_len`
of those byte slices.  Note the source function has exactly three
parameters — there is no offset argument; `original_len` truncates
the output taken from the start of the unpadded stream. -/
def write_unpadded (source : List Nat) (original_len : Nat) : List Nat :=
  let padded_chunks := chunks FR_PADDED_BITS (bytesToBits source)
  let unpadded_bits := (padded_chunks.map (fun c => c.take FR_UNPADDED_BITS)).flatten
  ((chunks 8 unpadded_bits).map bitsToByte).take original_len

lemma length_byteToBits (b : Nat) : (byteToBits b).length = 8 := by
  simp [byteToBits]

lemma bitsToByte_byteToBits : ∀ b < 256, bitsToByte (byteToBits b) = b := by decide

lemma byteToBits_bitsToByte (l : List Bool) (hl : l.length = 8) :
    byteToBits (bitsToByte l) = l := by
  rcases l with _ | ⟨a, _ | ⟨b, _ | ⟨c, _ | ⟨d, _ | ⟨e, _ | ⟨f, _ | ⟨g, _ | ⟨h, _ | ⟨x, t⟩⟩⟩⟩⟩⟩⟩⟩⟩
  · simp only [List.length_nil] at hl; omega
  · simp only [List.length_cons, List.length_nil] at hl; omega
  · simp only [List.length_cons, List.length_nil] at hl; omega
  · simp only [List.length_cons, List.length_nil] at hl; omega
  · simp only [List.length_cons, List.length_nil] at hl; omega
  · simp only [List.length_cons, List.length_nil] at hl; omega
  · simp only [List.length_cons, List.length_nil] at hl; omega
  · simp only [List.length_cons, List.length_nil] at hl; omega
  · cases a <;> cases b <;> cases c <;> cases d <;> cases e <;> cases f <;>
      cases g <;> cases h <;> decide
  · simp only [List.length_cons, List.length_nil] at hl
    omega

lemma chunksF_eq_of_le {α : Type} {n : Nat} (hn : n ≠ 0) :
    ∀ f1 f2 (l : List α), l.length ≤ f1 → l.length ≤ f2 →
      chunksF f1 n l = chunksF f2 n l := by
  intro f1
  induction f1 with
  | zero =>
    intro f2 l h1 _
    have hl : l = [] := List.eq_nil_of_length_eq_zero (by omega)
    subst hl
    cases f2 <;> rfl
  | succ f1 ih =>
    intro f2 l h1 h2
    cases l with
    | nil => cases f2 <;> rfl
    | cons x xs =>
      cases f2 with
      | zero => simp only [List.length_cons] at h2; omega
      | succ f2 =>
        simp only [chunksF]
        rw [if_neg hn, if_neg hn]
        have hd1 : ((x :: xs).drop n).length ≤ f1 := by
          rw [List.length_drop]
          simp only [List.length_cons] at h1 ⊢
          omega
        have hd2 : ((x :: xs).drop n).length ≤ f2 := by
          rw [List.length_drop]
          simp only [List.length_cons] at h2 ⊢
          omega
        rw [ih f2 _ hd1 hd2]

lemma chunks_nil (n : Nat) : chunks n ([] : List α) = [] := rfl

lemma chunks_cons {α : Type} (n : Nat) (l : List α) (hn : n ≠ 0) (hl : l ≠ []) :
    chunks n l = l.take n :: chunks n (l.drop n) := by
  cases l with
  | nil => exact absurd rfl hl
  | cons x xs =>
    show chunksF (x :: xs).length n (x :: xs) = _
    simp only [List.length_cons, chunksF]
    rw [if_neg hn]
    congr 1
    refine chunksF_eq_of_le hn xs.length ((x :: xs).drop n).length _ ?_ (le_refl _)
    rw [List.length_drop]
    simp only [List.length_cons]
    by_cases h : n ≤ xs.length + 1 <;> omega

end Fr32

namespace Fr32

lemma chunks_flatten_fuel {α : Type} (n : Nat) (hn : n ≠ 0) :
    ∀ fuel (l : List α), l.length ≤ fuel → (chunks n l).flatten = l := by
  intro fuel
  induction fuel with
  | zero =>
    intro l h
    have : l = [] := List.eq_nil_of_length_eq_zero (by omega)
    subst this
    rfl
  | succ fuel ih =>
    intro l h
    rcases eq_or_ne l [] with rfl | hl
    · rfl
    · rw [chunks_cons n l hn hl, List.flatten_cons]
      have hpos : 0 < l.length := List.length_pos.mpr hl
      rw [ih (l.drop n) (by rw [List.length_drop]; omega)]
      exact List.take_append_drop n l

lemma chunks_flatten {α : Type} (n : Nat) (hn : n ≠ 0) (l : List α) :
    (chunks n l).flatten = l :=
  chunks_flatten_fuel n hn l.length l (le_refl _)

lemma chunks_length_le_fuel {α : Type} (n : Nat) (hn : n ≠ 0) :
    ∀ fuel (l : List α), l.length ≤ fuel → ∀ c ∈ chunks n l, c.length ≤ n := by
  intro fuel
  induction fuel with
  | zero =>
    intro l h c hc
    have : l = [] := List.eq_nil_of_length_eq_zero (by omega)
    subst this
    simp [chunks_nil] at hc
  | succ fuel ih =>
    intro l h c hc
    rcases eq_or_ne l [] with rfl | hl
    · simp [chunks_nil] at hc
    · rw [chunks_cons n l hn hl, List.mem_cons] at hc
      have hpos : 0 < l.length := List.length_pos.mpr hl
      rcases hc with rfl | hc
      · rw [List.length_take]
        omega
      · exact ih (l.drop n) (by rw [List.length_drop]; omega) c hc

lemma chunks_length_le {α : Type} (n : Nat) (hn : n ≠ 0) (l : List α) :
    ∀ c ∈ chunks n l, c.length ≤ n :=
  chunks_length_le_fuel n hn l.length l (le_refl _)

lemma chunks_append_fuel {α : Type} (n : Nat) (hn : n ≠ 0) :
    ∀ fuel (a b : List α), a.length ≤ fuel → n ∣ a.length →
      chunks n (a ++ b) = chunks n a ++ chunks n b := by
  intro fuel
  induction fuel with
  | zero =>
    intro a b h _
    have : a = [] := List.eq_nil_of_length_eq_zero (by omega)
    subst this
    simp [chunks_nil]
  | succ fuel ih =>
    intro a b h hdvd
    rcases eq_or_ne a [] with rfl | ha
    · simp [chunks_nil]
    · have hpos : 0 < a.length := List.length_pos.mpr ha
      have hna : n ≤ a.length := Nat.le_of_dvd hpos hdvd
      rcases eq_or_ne b [] with rfl | hb
      · simp [chunks_nil]
      · have hab : a ++ b ≠ [] := by simp [ha]
        rw [chunks_cons n (a ++ b) hn hab, chunks_cons n a hn ha,
          List.take_append_of_le_length hna, List.drop_append_of_le_length hna]
        rw [List.cons_append]
        congr 1
        rw [ih (a.drop n) b (by rw [List.length_drop]; omega)
          (by rw [List.length_drop]; exact Nat.dvd_sub' hdvd (dvd_refl n))]

lemma chunks_append {α : Type} (n : Nat) (hn : n ≠ 0) (a b : List α)
    (hdvd : n ∣ a.length) : chunks n (a ++ b) = chunks n a ++ chunks n b :=
  chunks_append_fuel n hn a.length a b (le_refl _) hdvd

lemma chunks_flatten_of_forall_length {α : Type} (n : Nat) (hn : n ≠ 0) :
    ∀ (cs : List (List α)), (∀ c ∈ cs, c.length = n) →
      chunks n cs.flatten = cs := by
  intro cs
  induction cs with
  | nil => intro _; rfl
  | cons c cs ih =>
    intro hlen
    have hc : c.length = n := hlen c (List.mem_cons_self c cs)
    have hcne : c ≠ [] := by
      intro hcn
      subst hcn
      simp at hc
      omega
    rw [List.flatten_cons]
    have hne : c ++ cs.flatten ≠ [] := by simp [hcne]
    rw [chunks_cons n _ hn hne, List.take_left' hc, List.drop_left' hc,
      ih (fun d hd => hlen d (List.mem_cons_of_mem c hd))]

lemma bytesToBits_cons (b : Nat) (bs : List Nat) :
    bytesToBits (b :: bs) = byteToBits b ++ bytesToBits bs := by
  simp [bytesToBits]

lemma bytesToBits_append (a b : List Nat) :
    bytesToBits (a ++ b) = bytesToBits a ++ bytesToBits b := by
  simp [bytesToBits]

lemma length_bytesToBits (bs : List Nat) :
    (bytesToBits bs).length = 8 * bs.length := by
  induction bs with
  | nil => rfl
  | cons b bs ih =>
    rw [bytesToBits_cons, List.length_append, length_byteToBits, ih,
      List.length_cons]
    omega

lemma bytesToBits_flatten (ls : List (List Nat)) :
    bytesToBits ls.flatten = (ls.map bytesToBits).flatten := by
  induction ls with
  | nil => rfl
  | cons l ls ih =>
    rw [List.flatten_cons, bytesToBits_append, List.map_cons, List.flatten_cons, ih]

lemma bytesToBits_bitsToBytes_fuel :
    ∀ fuel (L : List Bool), L.length ≤ fuel → 8 ∣ L.length →
      bytesToBits (bitsToBytes L) = L := by
  intro fuel
  induction fuel with
  | zero =>
    intro L h _
    have : L = [] := List.eq_nil_of_length_eq_zero (by omega)
    subst this
    rfl
  | succ fuel ih =>
    intro L h hdvd
    rcases eq_or_ne L [] with rfl | hL
    · rfl
    · have hpos : 0 < L.length := List.length_pos.mpr hL
      have h8 : 8 ≤ L.length := Nat.le_of_dvd hpos hdvd
      unfold bitsToBytes
      rw [chunks_cons 8 L (by omega) hL, List.map_cons, bytesToBits_cons]
      rw [byteToBits_bitsToByte (L.take 8) (by rw [List.length_take]; omega)]
      have hrest : bytesToBits (bitsToBytes (L.drop 8)) = L.drop 8 :=
        ih (L.drop 8) (by rw [List.length_drop]; omega)
          (by rw [List.length_drop]; exact Nat.dvd_sub' hdvd (dvd_refl 8))
      unfold bitsToBytes at hrest
      rw [hrest]
      exact List.take_append_drop 8 L

lemma bytesToBits_bitsToBytes (L : List Bool) (hdvd : 8 ∣ L.length) :
    bytesToBits (bitsToBytes L) = L :=
  bytesToBits_bitsToBytes_fuel L.length L (le_refl _) hdvd

lemma bitsToBytes_bytesToBits (src : List Nat) (hsrc : ∀ b ∈ src, b < 256) :
    bitsToBytes (bytesToBits src) = src := by
  induction src with
  | nil => rfl
  | cons b bs ih =>
    rw [bytesToBits_cons]
    unfold bitsToBytes
    rw [chunks_append 8 (by omega) _ _ (by rw [length_byteToBits])]
    have hone : chunks 8 (byteToBits b) = [byteToBits b] := by
      have hne : byteToBits b ≠ [] := by
        intro hbn
        have := length_byteToBits b
        rw [hbn] at this
        simp at this
      rw [chunks_cons 8 _ (by omega) hne,
        List.take_of_length_le (le_of_eq (length_byteToBits b)),
        List.drop_eq_nil_of_le (le_of_eq (length_byteToBits b)), chunks_nil]
    rw [hone, List.map_append, List.map_cons, List.map_nil]
    rw [bitsToByte_byteToBits b (hsrc b (List.mem_cons_self b bs))]
    have := ih (fun x hx => hsrc x (List.mem_cons_of_mem b hx))
    unfold bitsToBytes at this
    rw [this]
    rfl

end Fr32

namespace Fr32

lemma length_padFrame (c : List Bool) (hc : c.length ≤ 256) :
    (padFrame c).length = 256 := by
  unfold padFrame FR_PADDED_BITS
  rw [List.length_append, List.length_replicate]
  omega

lemma take_padFrame (c : List Bool) (hc : c.length ≤ 254) :
    (padFrame c).take 254 = c ++ List.replicate (254 - c.length) false := by
  unfold padFrame FR_PADDED_BITS
  have h1 : (254 : Nat) = c.length + (254 - c.length) := by omega
  conv_lhs => rw [h1]
  rw [List.take_append, List.take_replicate,
    show (254 - c.length) ⊓ (256 - c.length) = 254 - c.length from by omega]

lemma pad_flatten_fuel :
    ∀ fuel (l : List Bool), l.length ≤ fuel →
      ∃ m, ((chunks 254 l).map (fun c => (padFrame c).take 254)).flatten
        = l ++ List.replicate m false := by
  intro fuel
  induction fuel with
  | zero =>
    intro l h
    have : l = [] := List.eq_nil_of_length_eq_zero (by omega)
    subst this
    exact ⟨0, by simp [chunks_nil]⟩
  | succ fuel ih =>
    intro l h
    rcases eq_or_ne l [] with rfl | hl
    · exact ⟨0, by simp [chunks_nil]⟩
    · have hpos : 0 < l.length := List.length_pos.mpr hl
      rw [chunks_cons 254 l (by omega) hl, List.map_cons, List.flatten_cons]
      by_cases hle : l.length ≤ 254
      · refine ⟨254 - l.length, ?_⟩
        rw [List.drop_eq_nil_of_le hle, chunks_nil, List.map_nil,
          List.flatten_nil, List.append_nil, List.take_of_length_le hle,
          take_padFrame l hle]
      · obtain ⟨m, hm⟩ := ih (l.drop 254) (by rw [List.length_drop]; omega)
        refine ⟨m, ?_⟩
        have htk : (l.take 254).length = 254 := by
          rw [List.length_take]
          omega
        rw [take_padFrame (l.take 254) (le_of_eq htk), htk]
        simp only [Nat.sub_self, List.replicate_zero, List.append_nil]
        rw [hm, ← List.append_assoc, List.take_append_drop]

/-- Claim C3: the codec round-trip law.  For every byte sequence `b`,
unpadding the padded stream recovers `b` exactly:
`write_unpadded(write_padded(b), |b|) = b` (the source `write_unpadded`
takes the original length as its only trimming parameter; output starts at
offset 0 of the unpadded stream). -/
theorem write_unpadded_write_padded_roundtrip (src : List Nat)
    (hsrc : ∀ b ∈ src, b < 256) :
    write_unpadded (write_padded src) src.length = src := by
  have h254 : (254 : Nat) ≠ 0 := by omega
  have hstep1 : bytesToBits (write_padded src) =
      ((chunks 254 (bytesToBits src)).map padFrame).flatten := by
    unfold write_padded FR_UNPADDED_BITS
    rw [bytesToBits_flatten, List.map_map]
    congr 1
    apply List.map_congr_left
    intro c hc
    have hcle : c.length ≤ 254 := chunks_length_le 254 h254 _ c hc
    show bytesToBits (bitsToBytes (padFrame c)) = padFrame c
    apply bytesToBits_bitsToBytes
    rw [length_padFrame c (by omega)]
    decide
  have hlen256 : ∀ c ∈ (chunks 254 (bytesToBits src)).map padFrame,
      c.length = 256 := by
    intro c hc
    rw [List.mem_map] at hc
    obtain ⟨d, hd, rfl⟩ := hc
    exact length_padFrame d (le_trans (chunks_length_le 254 h254 _ d hd) (by omega))
  have hstep2 : chunks 256 (((chunks 254 (bytesToBits src)).map padFrame).flatten)
      = (chunks 254 (bytesToBits src)).map padFrame :=
    chunks_flatten_of_forall_length 256 (by omega) _ hlen256
  simp only [write_unpadded, FR_PADDED_BITS, FR_UNPADDED_BITS]
  rw [hstep1, hstep2]
  have hmm : (((chunks 254 (bytesToBits src)).map padFrame).map
        (fun c => c.take 254))
      = (chunks 254 (bytesToBits src)).map (fun c => (padFrame c).take 254) := by
    rw [List.map_map]
    rfl
  rw [hmm]
  obtain ⟨m, hm⟩ := pad_flatten_fuel (bytesToBits src).length (bytesToBits src)
    (le_refl _)
  rw [hm]
  have hBB : 8 ∣ (bytesToBits src).length := ⟨src.length, length_bytesToBits src⟩
  rw [chunks_append 8 (by omega) _ _ hBB, List.map_append]
  have hb : (chunks 8 (bytesToBits src)).map bitsToByte = src := by
    have hx := bitsToBytes_bytesToBits src hsrc
    unfold bitsToBytes at hx
    exact hx
  rw [hb]
  exact List.take_left src _

/-- Witness for C3 at the concrete byte sequence `[255, 7]`. -/
theorem write_unpadded_write_padded_roundtrip_witness :
    (∀ b ∈ [255, 7], b < 256) ∧
      write_unpadded (write_padded [255, 7]) 2 = [255, 7] :=
  ⟨by decide, write_unpadded_write_padded_roundtrip [255, 7] (by decide)⟩

/-- Claim C2 (code evaluated at the failing input): `write_unpadded` has no
offset parameter — its third argument is `original_len`, which truncates
the output taken from the START of the unpadded stream.  Called the way
`get_unsealed_range(offset = 5, …)` intends, on the padded image of bytes
`1..10`, it returns the FIRST five bytes `[1..5]`, not `contents[5..]`. -/
theorem write_unpadded_truncates_not_skips :
    write_unpadded (write_padded [1, 2, 3, 4, 5, 6, 7, 8, 9, 10]) 5
        = [1, 2, 3, 4, 5] ∧
      write_unpadded (write_padded [1, 2, 3, 4, 5, 6, 7, 8, 9, 10]) 5
        ≠ [6, 7, 8, 9, 10] := by
  decide

end Fr32

namespace Fr32Writer

/-- State of the stateful `Fr32Writer` between calls: the retained residual
bit prefix (`prefix` in the source, a `u8`), its size in bits
(`prefix_size`), and the number of payload bits still needed to complete
the current 254-bit frame (`bits_needed`). -/
structure WState where
  pfx : Nat
  pfx_size : Nat
  bits_needed : Nat
  deriving Repr, DecidableEq

/-- Model of `Fr32Writer::new`: empty prefix, a full frame of 254 bits
needed. -/
def newWriter : WState := WState.mk 0 0 254

/-- Model of `fr32::split_byte`: split `byte` at bit position `pos`; the
more significant part is right-shifted into place; parts are returned
least-significant first. -/
def split_byte (byte pos : Nat) : Nat × Nat :=
  if pos = 0 then (0, byte)
  else
    let b := byte >>> pos
    let mask_size := 8 - pos
    let mask := (255 >>> mask_size) <<< mask_size
    let a := (byte &&& mask) >>> mask_size
    (a, b)

/-- Model of `fr32::assemble_bytes`: write `prefix` into `out[0]`, then for
each input byte either or it in place (`prefix_size == 0`) or shift it left
by `prefix_size` (u8 `wrapping_shl`, which masks the shift amount with 7)
and carry its spilled high bits as the next prefix; finally place the
running prefix or-ed with the shifted suffix at `out[bytes.len()]`.  The
output is the fixed 32-byte array `Fr32Ary`; u8 overflow is `% 256`. -/
def assemble_bytes (pfx pfx_size : Nat) (bytes : List Nat) (suffix : Nat) :
    List Nat :=
  let left_shift := pfx_size
  let right_shift := 8 - pfx_size
  let step := fun (acc : List Nat × Nat) (ib : Nat × Nat) =>
    let out := acc.1
    let p := acc.2
    let i := ib.1
    let b := ib.2
    if pfx_size = 0 then
      (out.set i (out.getD i 0 ||| b), p)
    else
      let shifted := (b <<< (left_shift % 8)) % 256
      (out.set i ((p ||| shifted) % 256), b >>> right_shift)
  let res := bytes.enum.foldl step ((List.replicate 32 0).set 0 pfx, pfx)
  res.1.set bytes.length ((res.2 ||| ((suffix <<< (left_shift % 8)) % 256)) % 256)

/-- Model of `Fr32Writer::process_bytes`.  Returns
`((remainder, remainder_size, bytes_consumed, out_bytes, complete), state')`.
`bytes_to_consume ≤ bytes.len()` always holds (it is a `min`), so the
source's outer `else` branch is unreachable; the remaining three paths are:
byte-aligned suffix (`remainder_size == 0`, itself unreachable since
`remainder_size = 8 - bits_needed % 8 ≥ 1`), too few bytes (incomplete),
and the complete chunk. -/
def process_bytes (s : WState) (bytes : List Nat) :
    (Nat × Nat × Nat × List Nat × Bool) × WState :=
  let bits_needed := s.bits_needed
  let full_bytes_needed := bits_needed / 8
  let suffix_size := bits_needed % 8
  let remainder_size0 := 8 - suffix_size
  let bytes_to_consume := min full_bytes_needed bytes.length
  if remainder_size0 = 0 then
    let sr := split_byte 0 suffix_size
    let out := assemble_bytes s.pfx s.pfx_size (bytes.take bytes_to_consume) sr.1
    ((sr.2, remainder_size0, bytes_to_consume, out, true), s)
  else if bytes_to_consume + 1 > bytes.length then
    let sr := split_byte 0 suffix_size
    let out := assemble_bytes s.pfx s.pfx_size (bytes.take bytes_to_consume) sr.1
    ((sr.2, s.pfx_size, bytes.length, out, false),
      WState.mk s.pfx s.pfx_size (bits_needed - bytes.length))
  else
    let final_byte := bytes.getD bytes_to_consume 0
    let sr := split_byte final_byte suffix_size
    let out := assemble_bytes s.pfx s.pfx_size (bytes.take bytes_to_consume) sr.1
    ((sr.2, remainder_size0, bytes_to_consume + 1, out, true),
      WState.mk s.pfx s.pfx_size (254 - remainder_size0))

/-- Model of the loop in `Fr32Writer::write`.  Fuel only drives structural
recursion (each complete chunk consumes at least one input byte, so
`buf.length + 1` suffices; running out returns `none`).  Returns the final
state, the bytes pushed to the sink, the `bytes_written` counter and the
length of the residual slice.  The source's assertions in the incomplete
branch (`buf.len() == bytes_consumed`, `bytes_consumed < 32`,
`real_length <= bytes_to_write.len()`) are modelled as checks whose
failure is `none`. -/
def writeLoop (fuel : Nat) (s : WState) (buf : List Nat)
    (bytes_written bytes_remaining : Nat) :
    Option (WState × List Nat × Nat × Nat) :=
  match fuel with
  | 0 => none
  | fuel + 1 =>
    if bytes_written < bytes_remaining then
      let pb := process_bytes s buf
      let remainder := pb.1.1
      let remainder_size := pb.1.2.1
      let bytes_consumed := pb.1.2.2.1
      let bytes_to_write := pb.1.2.2.2.1
      let more := pb.1.2.2.2.2
      let s1 := pb.2
      if more then
        match writeLoop fuel (WState.mk remainder remainder_size s1.bits_needed)
            (buf.drop bytes_consumed)
            (bytes_written + bytes_to_write.length) bytes_remaining with
        | none => none
        | some (s3, out, w3, rb) => some (s3, bytes_to_write ++ out, w3, rb)
      else
        if buf.length = bytes_consumed ∧ bytes_consumed < 32 ∧
            buf.length ≤ bytes_to_write.length then
          let truncated := bytes_to_write.take buf.length
          let s2 := if s1.pfx_size > 0
            then WState.mk (bytes_to_write.getD buf.length 0) s1.pfx_size
              s1.bits_needed
            else s1
          some (s2, truncated, bytes_written + truncated.length, buf.length)
        else none
    else some (s, [], bytes_written, buf.length)

/-- Model of `Fr32Writer::write`: run the loop, then apply the source's
final accounting (`if bytes_written > buf.len() { bytes_remaining } else
{ bytes_written }`, over the residual slice). -/
def write (s : WState) (buf : List Nat) : Option (WState × List Nat × Nat) :=
  match writeLoop (buf.length + 1) s buf 0 buf.length with
  | none => none
  | some (s1, out, w, rb) => some (s1, out, if w > rb then buf.length else w)

/-- Model of `Fr32Writer::finish`: commit a non-empty retained prefix as
exactly one final byte (the source asserts `prefix_size <= 8`; its failure
is `none`), or emit nothing. -/
def finish (s : WState) : Option (WState × List Nat) :=
  if s.pfx_size > 0 then
    if s.pfx_size ≤ 8 then some (WState.mk 0 0 s.bits_needed, [s.pfx])
    else none
  else some (s, [])

lemma process_bytes_remainder_le (s : WState) (bytes : List Nat) :
    ((process_bytes s bytes).1.2.1 = 8 - s.bits_needed % 8 ∨
      (process_bytes s bytes).1.2.1 = s.pfx_size) ∧
    (process_bytes s bytes).2.pfx_size = s.pfx_size := by
  simp only [process_bytes]
  split
  · exact ⟨Or.inl rfl, rfl⟩
  · split
    · exact ⟨Or.inr rfl, rfl⟩
    · exact ⟨Or.inl rfl, rfl⟩

end Fr32Writer

namespace Fr32Writer

/-- Claim C6 counterexample: writing 128 bytes from a fresh writer leaves a
retained residual prefix of 8 bits — not at most 7 — between this write
call and the next (four complete 254-bit frames consume 127 bytes of
payload, and the 1024th input bit boundary is byte-aligned, making
`remainder_size = 8`). -/
theorem writer_retains_8_bit_residual :
    (write newWriter (List.replicate 128 0)).map (fun r => r.1.pfx_size)
        = some 8 ∧
      (write newWriter (List.replicate 128 0)).map (fun r => r.1.pfx_size)
        ≠ some 7 ∧
      ¬ (8 : Nat) ≤ 7 := by
  refine ⟨by decide, by decide, by decide⟩

/-- Claim C6 (amended): between any two successive `write` calls the
retained residual prefix is at most 8 bits (one byte) — the bound of 7 is
violated exactly when a write ends at a byte-aligned frame remainder — and
`finish` commits a non-empty retained prefix as exactly one final byte
(and emits nothing when the prefix is empty). -/
theorem writer_residual_le_byte_and_finish_commits :
    (∀ fuel s buf w t r, s.pfx_size ≤ 8 →
        writeLoop fuel s buf w t = some r → r.1.pfx_size ≤ 8) ∧
      (∀ s buf r, s.pfx_size ≤ 8 → write s buf = some r →
        r.1.pfx_size ≤ 8) ∧
      (∀ s, 0 < s.pfx_size → s.pfx_size ≤ 8 →
        finish s = some (WState.mk 0 0 s.bits_needed, [s.pfx])) ∧
      (∀ s, s.pfx_size = 0 → finish s = some (s, [])) := by
  have hloop : ∀ fuel s buf w t r, s.pfx_size ≤ 8 →
      writeLoop fuel s buf w t = some r → r.1.pfx_size ≤ 8 := by
    intro fuel
    induction fuel with
    | zero =>
      intro s buf w t r _ h
      simp [writeLoop] at h
    | succ fuel ih =>
      intro s buf w t r hs h
      simp only [writeLoop] at h
      by_cases hw : w < t
      · rw [if_pos hw] at h
        have hrs := process_bytes_remainder_le s buf
        rcases hpb : process_bytes s buf with ⟨⟨rem, rs, bc, outb, more⟩, s1⟩
        rw [hpb] at h hrs
        dsimp only at h hrs
        cases more with
        | false =>
          rw [if_neg (by simp)] at h
          split at h
          · rw [Option.some.injEq] at h
            subst h
            dsimp only
            split
            · dsimp only
              omega
            · omega
          · exact absurd h (by simp)
        | true =>
          rw [if_pos rfl] at h
          rcases hrec : writeLoop fuel (WState.mk rem rs s1.bits_needed)
              (buf.drop bc) (w + outb.length) t with _ | r3
          · rw [hrec] at h
            exact absurd h (by simp)
          · rw [hrec] at h
            rcases r3 with ⟨s3, out3, w3, rb3⟩
            dsimp only at h
            rw [Option.some.injEq] at h
            subst h
            have hrs8 : rs ≤ 8 := by
              rcases hrs.1 with h1 | h1 <;> omega
            exact ih (WState.mk rem rs s1.bits_needed) (buf.drop bc)
              (w + outb.length) t (s3, out3, w3, rb3) hrs8 hrec
      · rw [if_neg hw] at h
        rw [Option.some.injEq] at h
        subst h
        exact hs
  refine ⟨hloop, ?_, ?_, ?_⟩
  · intro s buf r hs h
    simp only [write] at h
    rcases hrec : writeLoop (buf.length + 1) s buf 0 buf.length with _ | r1
    · rw [hrec] at h
      exact absurd h (by simp)
    · rw [hrec] at h
      rcases r1 with ⟨s1, out1, w1, rb1⟩
      dsimp only at h
      rw [Option.some.injEq] at h
      subst h
      exact hloop _ _ _ _ _ _ hs hrec
  · intro s h0 h8
    unfold finish
    rw [if_pos h0, if_pos h8]
  · intro s h0
    unfold finish
    rw [if_neg (by omega)]

/-- Witness for the amended C6: a concrete small write keeps the residual
within one byte, and `finish` from a retained 4-bit prefix emits exactly
the one prefix byte. -/
theorem writer_residual_le_byte_and_finish_commits_witness :
    (newWriter.pfx_size ≤ 8 ∧
        write newWriter [9] = some (WState.mk 0 0 253, [9], 1)) ∧
      ((WState.mk 0 0 253, ([9] : List Nat), 1) :
          WState × List Nat × Nat).1.pfx_size ≤ 8 ∧
      (0 < (WState.mk 3 4 250).pfx_size ∧ (WState.mk 3 4 250).pfx_size ≤ 8) ∧
      finish (WState.mk 3 4 250) = some (WState.mk 0 0 250, [3]) ∧
      finish (WState.mk 0 0 254) = some (WState.mk 0 0 254, []) :=
  ⟨⟨by decide, by decide⟩,
    writer_residual_le_byte_and_finish_commits.2.1 newWriter [9] _
      (by decide) (by decide),
    ⟨by decide, by decide⟩,
    writer_residual_le_byte_and_finish_commits.2.2.1 (WState.mk 3 4 250)
      (by decide) (by decide),
    writer_residual_le_byte_and_finish_commits.2.2.2 (WState.mk 0 0 254) rfl⟩

end Fr32Writer
